import Mathlib

/-!
# Verification of the FAQ retrieval core

Shallow embedding of the retrieval pipeline of the FAQ bot repository:
text normalization (`src/normalize.py`), category prediction
(`src/category_predictor.py`), similarity scoring (`src/utils/calc_score.py`),
the matching engine (`src/match.py`) and the corpus cache (`src/cache.py`).

Conventions of the embedding:
* Python `str` is Lean `String`; character-level work happens on `List Char`.
* Python `float` values are modelled as exact rationals / reals (`ℚ` for the
  computable parts, `ℝ` where `sqrt` is involved); float rounding is not
  modelled.
* Python regular expressions used by the source are all simple (literal
  alternations, character classes, word boundaries); each is embedded as an
  explicit scanner with Python's leftmost, non-overlapping `re.sub`/`re.search`
  semantics.
* External collaborators (the sentence-embedding model, the SQLite engine,
  the `rapidfuzz` library) are embedded by their interface behaviour: the
  embedding model is an opaque function parameter `String → List ℚ`,
  `ORDER BY id ASC` is a sort, and `fuzz.token_set_ratio` is written out
  following its documented algorithm.
-/

/-! ## Python string primitives -/

/-- Whitespace for Python `str.strip` / `str.split` / `\s` (ASCII part;
the corpus alphabets use only these). -/
def pyIsSpace (c : Char) : Bool :=
  c = ' ' || c = '\t' || c = '\n' || c = '\r' || c = '\x0b' || c = '\x0c'

/-- Python `str.lower` restricted to ASCII letters; the Arabic script used by
the program is uncased, so this is the whole effect of `.lower()` here. -/
def pyLowerChar (c : Char) : Char :=
  if 'A' ≤ c && c ≤ 'Z' then Char.ofNat (c.toNat + 32) else c

/-- Range test `a ≤ code(c) ≤ b` on character codes. -/
def charBetween (c : Char) (lo hi : Nat) : Bool :=
  Nat.ble lo c.toNat && Nat.ble c.toNat hi

/-- Python regex `\w` (word character) for the alphabets that occur in the
program: ASCII alphanumerics, underscore, Arabic letters and Arabic digits. -/
def pyIsWordChar (c : Char) : Bool :=
  charBetween c 48 57 || charBetween c 65 90 || charBetween c 97 122 ||
  c = '_' ||
  charBetween c 0x620 0x64A || charBetween c 0x660 0x669 ||
  charBetween c 0x66E 0x6D3 || c.toNat = 0x6D5 ||
  charBetween c 0x6E5 0x6E6 || charBetween c 0x6EE 0x6FF

/-- Python `str.strip()`: drop leading and trailing whitespace. -/
def pyStrip (l : List Char) : List Char :=
  ((l.dropWhile pyIsSpace).reverse.dropWhile pyIsSpace).reverse

/-- Python `str.split()` (no argument): split on runs of whitespace,
dropping empty pieces. -/
def pySplitGo : Nat → List Char → List (List Char)
  | 0, _ => []
  | _ + 1, [] => []
  | fuel + 1, c :: rest =>
    if pyIsSpace c then pySplitGo fuel rest
    else (c :: rest.takeWhile (fun d => !pyIsSpace d)) ::
      pySplitGo fuel (rest.dropWhile (fun d => !pyIsSpace d))

def pySplit (l : List Char) : List (List Char) := pySplitGo l.length l

/-- Python `" ".join(..)`. -/
def joinSpace : List (List Char) → List Char
  | [] => []
  | [t] => t
  | t :: ts => t ++ ' ' :: joinSpace ts

/-- Case-insensitive literal prefix test (Python regex `IGNORECASE` on an
escaped literal pattern). -/
def ciPrefixAt : List Char → List Char → Bool
  | [], _ => true
  | _ :: _, [] => false
  | p :: ps, c :: cs => (pyLowerChar c = pyLowerChar p) && ciPrefixAt ps cs

/-- Case-insensitive substring test: `re.search` of an escaped literal. -/
def ciContains (p : List Char) : List Char → Bool
  | [] => ciPrefixAt p []
  | c :: rest => ciPrefixAt p (c :: rest) || ciContains p rest

/-! ## Word-boundary scanners

`normalize.py` builds, for every synonym key and polite phrase `pat`, the
pattern `\b{re.escape(pat)}\b` and applies `pattern.sub(replacement, s)`.
`\b` holds between two positions iff exactly one side is a word character
(the outside of the string counts as a non-word character).
`re.sub` replaces the non-overlapping, leftmost matches of the original
string. -/

/-- Python `\b` between a previous character (`none` = string edge) and a next
character (`none` = string edge). -/
def pyBoundary (left right : Option Char) : Bool :=
  (match left with | none => false | some c => pyIsWordChar c) ≠
  (match right with | none => false | some c => pyIsWordChar c)

/-- A `\b pat \b` match starting at the current position, where `prev` is the
character just before this position (`none` at the string start). -/
def bMatchAt (pat : List Char) (prev : Option Char) (l : List Char) : Bool :=
  match pat with
  | [] => false
  | p :: _ =>
    pyBoundary prev (some p) && pat.isPrefixOf l &&
    pyBoundary pat.getLast? (l.drop pat.length).head?

/-- One pass of `re.sub(r"\b pat \b", rep, ·)`: scan left to right, replace
each non-overlapping match. `fuel` only bounds the scan: it starts at the
length of the list and every step consumes at least one character, so it is
never exhausted. -/
def bSubGo (pat rep : List Char) : Nat → Option Char → List Char → List Char
  | 0, _, l => l
  | _ + 1, _, [] => []
  | fuel + 1, prev, c :: rest =>
    if bMatchAt pat prev (c :: rest) then
      rep ++ bSubGo pat rep fuel pat.getLast? ((c :: rest).drop pat.length)
    else
      c :: bSubGo pat rep fuel (some c) rest

/-- Full `re.sub(r"\b pat \b", rep, s)`. -/
def boundarySub (pat rep l : List Char) : List Char :=
  bSubGo pat rep l.length none l

/-! ## Normalizer tables (`ArabicNormalizer.__init__`) -/

/-- Diacritic character class
`[ؗ-ًؚ-ْٗ-ٰٟۖ-ۭ]`. -/
def isDiacritic (c : Char) : Bool :=
  charBetween c 0x617 0x61A || charBetween c 0x64B 0x652 ||
  charBetween c 0x657 0x65F || c.toNat = 0x670 || charBetween c 0x6D6 0x6ED

/-- Punctuation class of `self._punctuation` (Arabic marks, the extended
Arabic digits ۴-۹ listed there, and the ASCII punctuation ranges). -/
def isPunct (c : Char) : Bool :=
  c.toNat = 0x60C || c.toNat = 0x61B || c.toNat = 0x61F ||
  charBetween c 0x66A 0x66D || c.toNat = 0x6D4 || charBetween c 0x6F4 0x6F9 ||
  charBetween c 33 47 || charBetween c 58 64 ||
  charBetween c 91 96 || charBetween c 123 126

/-- Emoji character class of `self._emoji_pattern`. -/
def isEmojiChar (c : Char) : Bool :=
  charBetween c 0x1F600 0x1F64F || charBetween c 0x1F300 0x1F5FF ||
  charBetween c 0x1F680 0x1F6FF || charBetween c 0x1F1E0 0x1F1FF ||
  charBetween c 0x2702 0x27B0 || charBetween c 0x24C2 0x1F251

/-- Source `self._char_map`: fold letter-shape variants. -/
def charFold (c : Char) : Char :=
  if c = 'أ' then 'ا' else if c = 'إ' then 'ا' else if c = 'آ' then 'ا'
  else if c = 'ى' then 'ي' else if c = 'ؤ' then 'و' else if c = 'ئ' then 'ي'
  else if c = 'ة' then 'ه' else c

/-- Source `self._ar_digits`: Arabic-Indic digits to ASCII digits. -/
def digitFold (c : Char) : Char :=
  if charBetween c 0x660 0x669 then Char.ofNat (c.toNat - 0x660 + 48) else c

/-- Source `self.military_terms` flattened into `self._syn_map` insertion order,
followed by the general colloquial synonyms (`dict` preserves insertion
order; `normalize` iterates `self._syn_map.items()` in that order). -/
def SYN_TABLE : List (String × String) :=
  [ ("التربية العسكرية", "التربيةالعسكرية"),
    ("التربيه العسكريه", "التربيةالعسكرية"),
    ("تربية عسكرية", "التربيةالعسكرية"),
    ("تربيه عسكريه", "التربيةالعسكرية"),
    ("التربية العسكرى", "التربيةالعسكرية"),
    ("دورة عسكرية", "التربيةالعسكرية"),
    ("دورة تربية عسكرية", "التربيةالعسكرية"),
    ("دوره", "التربيةالعسكرية"),
    ("دورات", "التربيةالعسكرية"),
    ("الدورة", "التربيةالعسكرية"),
    ("الدورات", "التربيةالعسكرية"),
    ("تسجيل", "التسجيل"),
    ("التسجيل فى", "التسجيل"),
    ("التسجيل في", "التسجيل"),
    ("تسجيل فى", "التسجيل"),
    ("تسجيل في", "التسجيل"),
    ("امتحان", "الامتحان"),
    ("الاختبار", "الامتحان"),
    ("اختبار", "الامتحان"),
    ("امتحانات", "الامتحان"),
    ("اختبارات", "الامتحان"),
    ("تحويل", "التحويل"),
    ("تحويل من", "التحويل"),
    ("تحويل الى", "التحويل"),
    ("تحويل إلى", "التحويل"),
    ("غياب", "الغياب"),
    ("الغيابات", "الغياب"),
    ("تغيب", "الغياب"),
    ("التغيب", "الغياب"),
    ("حضور", "الحضور"),
    ("الحضور فى", "الحضور"),
    ("الحضور في", "الحضور"),
    ("رسوم", "الرسوم"),
    ("مصاريف", "الرسوم"),
    ("المصاريف", "الرسوم"),
    ("الرسوم المالية", "الرسوم"),
    ("ازاي", "كيف"),
    ("أزاي", "كيف"),
    ("فين", "اين"),
    ("وين", "اين"),
    ("ممكن", "هل يمكن"),
    ("ينفع", "هل يمكن"),
    ("أعمل اي", "ماذا افعل"),
    ("أعمل ايه", "ماذا افعل"),
    ("أعمل إيه", "mاذا افعل"),
    ("أعمل ازاي", "كيف افعل"),
    ("عايز", "اريد"),
    ("عاوز", "اريد"),
    ("عوز", "اريد"),
    ("عندي", "لدي"),
    ("عندى", "لدي") ]

/-- Source `self._polite_phrases`. -/
def POLITE_PHRASES : List String :=
  ["لو سمحت", "من فضلك", "يا جماعة", "ya جماعة", "يا شباب", "يا ريت",
   "plz", "please", "لو سمحتوا", "من فضلكم", "ا؟"]

/-- Source `self._question_words` (the duplicated literals of the Python set
collapse). -/
def QUESTION_WORDS : List String :=
  ["متى", "اين", "كيف", "كم", "ما", "ماذا", "لماذا", "هل", "أين", "إلى", "من"]

/-- Source `self._drop_tokens`. -/
def DROP_TOKENS : List String :=
  ["و", "في", "على", "من", "الى", "إن", "أن", "لا", "لكن", "ثم", "حتى",
   "قد", "هل", "؟", "?"]

/-! ## Normalizer pipeline scanners -/

/-- Match of `https?://\S+|www\.\S+` at the current position; returns the
number of characters the (greedy) match consumes. -/
def urlMatchLen (l : List Char) : Option Nat :=
  if ("https://".toList).isPrefixOf l then
    let k := (l.drop 8).takeWhile (fun c => !pyIsSpace c) |>.length
    if k ≥ 1 then some (8 + k) else none
  else if ("http://".toList).isPrefixOf l then
    let k := (l.drop 7).takeWhile (fun c => !pyIsSpace c) |>.length
    if k ≥ 1 then some (7 + k) else none
  else if ("www.".toList).isPrefixOf l then
    let k := (l.drop 4).takeWhile (fun c => !pyIsSpace c) |>.length
    if k ≥ 1 then some (4 + k) else none
  else none

/-- Source `self._url_pattern.sub('', s)`: remove URLs, leftmost non-overlapping
(fuel-bounded scan, fuel starts at the list length). -/
def urlSubGo : Nat → List Char → List Char
  | 0, l => l
  | _ + 1, [] => []
  | fuel + 1, c :: rest =>
    match urlMatchLen (c :: rest) with
    | some n => urlSubGo fuel ((c :: rest).drop n)
    | none => c :: urlSubGo fuel rest

def urlSub (l : List Char) : List Char := urlSubGo l.length l

/-- Source `self._lil_prefix = re.compile(r'\bلل(\w+)')`, substituted with `ال\1`:
at a word boundary, rewrite a leading `لل` of a word to `ال`; the greedy
`\w+` consumes the rest of the word. -/
def lilSubGo : Nat → Option Char → List Char → List Char
  | 0, _, l => l
  | _ + 1, _, [] => []
  | fuel + 1, prev, c :: rest =>
    if pyBoundary prev (some c) && c = 'ل' &&
        (match rest with
         | d :: e :: _ => d = 'ل' && pyIsWordChar e
         | _ => false) then
      let run := (rest.drop 1).takeWhile pyIsWordChar
      'ا' :: 'ل' :: run ++
        lilSubGo fuel run.getLast? ((rest.drop 1).dropWhile pyIsWordChar)
    else
      c :: lilSubGo fuel (some c) rest

def lilSub (l : List Char) : List Char := lilSubGo l.length none l

/-- Source `self._multi_space.sub(" ", s)`: every run of two or more whitespace
characters becomes one space; a single whitespace character is kept as is. -/
def multiSpaceGo : Nat → List Char → List Char
  | 0, l => l
  | _ + 1, [] => []
  | fuel + 1, c :: rest =>
    if pyIsSpace c then
      match rest with
      | d :: _ =>
        if pyIsSpace d then
          ' ' :: multiSpaceGo fuel (rest.dropWhile pyIsSpace)
        else c :: multiSpaceGo fuel rest
      | [] => [c]
    else c :: multiSpaceGo fuel rest

def multiSpaceSub (l : List Char) : List Char := multiSpaceGo l.length l

/-- Source `_remove_duplicate_words`: drop consecutive duplicate tokens; empty or
token-free text is returned unchanged. -/
def removeDupWords (l : List Char) : List Char :=
  if l = [] then l
  else
    let words := pySplit l
    if words = [] then l
    else joinSpace (words.foldl
      (fun (acc : List (List Char) × Option (List Char)) w =>
        if acc.2 = some w then acc else (acc.1 ++ [w], some w)) ([], none)).1

/-- Method `ArabicNormalizer.normalize`. -/
def ArabicNormalizer.normalize (text : String) (aggressive : Bool := true) : String :=
  if pyStrip text.toList = [] then ""
  else
    let s := (pyStrip text.toList).map pyLowerChar
    let s := urlSub s
    let s := s.filter (fun c => !isEmojiChar c)
    let s := s.filter (fun c => !isDiacritic c)
    let s := s.filter (fun c => !(c.toNat = 0x640))
    let s := s.map (fun c => if isPunct c then ' ' else c)
    let s := lilSub s
    let s := s.map charFold
    let s := s.map digitFold
    let s := POLITE_PHRASES.foldl
      (fun s p => boundarySub p.toList [' '] s) s
    let s := SYN_TABLE.foldl
      (fun s pr => boundarySub pr.1.toList pr.2.toList s) s
    let s := removeDupWords s
    let s := pyStrip (multiSpaceSub s)
    let tokens := pySplit s
    let tokens := if aggressive then
        tokens.filter (fun t =>
          !(DROP_TOKENS.contains (String.mk t)) ||
            QUESTION_WORDS.contains (String.mk t))
      else tokens
    let tokens := tokens.filter (fun t =>
      Nat.blt 1 t.length || QUESTION_WORDS.contains (String.mk t))
    String.mk (joinSpace tokens)

/-- Alias `normalize_ar` (module-level alias for the global normalizer). -/
def normalize_ar (text : String) (aggressive : Bool := true) : String :=
  ArabicNormalizer.normalize text aggressive

/-! ## `rapidfuzz.fuzz` model

`calc_score.py` calls `fuzz.token_set_ratio` from the external `rapidfuzz`
library.  The library's documented algorithm: split both strings on
whitespace, form the sorted unique token sets, and return the maximum of the
normalized InDel similarities (`fuzz.ratio`) of the three combinations
`sect` / `sect ++ diff_ab` / `sect ++ diff_ba`, with two guards: an empty
token set yields 0, and a non-empty intersection with one empty difference
yields 100.  `fuzz.ratio` of two character sequences is
`100 * (len1 + len2 - indel_distance) / (len1 + len2)` (100 for two empty
strings), and the InDel distance equals `len1 + len2 - 2 * lcs`. -/

/-- Python string `<` (lexicographic on code points). -/
def lexLe : List Char → List Char → Bool
  | [], _ => true
  | _ :: _, [] => false
  | a :: as, b :: bs => if a = b then lexLe as bs else Nat.blt a.toNat b.toNat

def insertSorted (w : List Char) : List (List Char) → List (List Char)
  | [] => [w]
  | v :: vs => if lexLe w v then w :: v :: vs else v :: insertSorted w vs

/-- Python `sorted(...)` on a list of strings. -/
def sortStrs (l : List (List Char)) : List (List Char) := l.foldr insertSorted []

/-- Longest common subsequence length (for the InDel distance). -/
def lcsLen : List Char → List Char → Nat
  | [], _ => 0
  | _ :: _, [] => 0
  | a :: as, b :: bs =>
    if a = b then lcsLen as bs + 1
    else max (lcsLen as (b :: bs)) (lcsLen (a :: as) bs)

/-- Model of `fuzz.ratio`: normalized InDel similarity in `[0, 100]`. -/
def indelSim (a b : List Char) : ℚ :=
  if a.length + b.length = 0 then 100
  else 100 * (2 * lcsLen a b : ℚ) / ((a.length : ℚ) + (b.length : ℚ))

/-- Python `sorted(set(s.split()))`. -/
def sortedTokenSet (s : String) : List (List Char) :=
  sortStrs (pySplit s.toList).dedup

/-- Model of `fuzz.token_set_ratio` (external library model, see section header). -/
def fuzzTokenSet (s1 s2 : String) : ℚ :=
  let ta := sortedTokenSet s1
  let tb := sortedTokenSet s2
  if ta = [] ∨ tb = [] then 0
  else
    let sect := ta.filter (fun t => tb.contains t)
    let dab := ta.filter (fun t => !tb.contains t)
    let dba := tb.filter (fun t => !ta.contains t)
    if sect ≠ [] ∧ (dab = [] ∨ dba = []) then 100
    else
      let s0 := joinSpace sect
      let sab := joinSpace (sect ++ dab)
      let sba := joinSpace (sect ++ dba)
      max (indelSim s0 sab) (max (indelSim s0 sba) (indelSim sab sba))

/-! ## Similarity scorer (`src/utils/calc_score.py`) -/

/-- Sum of squares (`np.linalg.norm(v) ** 2`). -/
def sumSq (v : List ℚ) : ℚ := (v.map (fun x => x * x)).sum

/-- Dot product `np.dot` of two equal-length vectors. -/
def dotQ (a b : List ℚ) : ℚ := ((a.zip b).map (fun p => p.1 * p.2)).sum

/-- Cosine `_cos(a, b)`: cosine similarity with the zero-denominator guard.  The
float test `denom == 0` with `denom = norm(a) * norm(b)` holds exactly when
`sumSq a * sumSq b = 0` (norms are non-negative), which is the decidable
form used for the guard here. -/
noncomputable def cosSim (a b : List ℚ) : ℝ :=
  if sumSq a * sumSq b = 0 then 0
  else ((dotQ a b : ℚ) : ℝ) /
    (Real.sqrt ((sumSq a : ℚ) : ℝ) * Real.sqrt ((sumSq b : ℚ) : ℝ))

/-- Occurrence of `MIL_PATTERNS[0]`, the regex
`التربي[ةه]\s*العسكري[ةه]`, at the current position. -/
def milEduAt (l : List Char) : Bool :=
  if ("التربي".toList).isPrefixOf l then
    match l.drop 6 with
    | c :: r2 =>
      (c = 'ة' || c = 'ه') &&
      (let r3 := r2.dropWhile pyIsSpace
       if ("العسكري".toList).isPrefixOf r3 then
         match r3.drop 7 with
         | d :: _ => d = 'ة' || d = 'ه'
         | [] => false
       else false)
    | [] => false
  else false

def milEduOccurs : List Char → Bool
  | [] => false
  | c :: rest => milEduAt (c :: rest) || milEduOccurs rest

/-- Predicate `pattern_matches`: `re.search` of each entry of `MIL_PATTERNS`.  The
second pattern `دور(?:ة)?(?:\s*التربي[ةه]\s*العسكري[ةه])?` has only optional
groups after `دور`, so it finds a match exactly when `دور` occurs. -/
def pattern_matches (s : String) : Bool :=
  let l := s.toList
  milEduOccurs l || ciContains "دور".toList l ||
  ciContains "التسجيل".toList l || ciContains "التحويل".toList l ||
  ciContains "الحضور".toList l || ciContains "الغياب".toList l ||
  ciContains "الامتحان".toList l || ciContains "الرسوم".toList l ||
  ciContains "بحث".toList l

/-- The module-level weight/boost globals of `calc_score.py`
(env-configurable; the values below are the defaults). -/
structure ScoreConfig where
  weight_cos : ℚ
  weight_fuzz : ℚ
  pattern_boost : ℚ
  exact_bonus : ℚ
  prefix_bonus : ℚ
  category_boost : ℚ
  score_scale : ℚ
deriving DecidableEq

def defaultConfig : ScoreConfig :=
  { weight_cos := 0.65, weight_fuzz := 0.35, pattern_boost := 0.12,
    exact_bonus := 0.20, prefix_bonus := 0.10, category_boost := 0.15,
    score_scale := 100 }

/-- The optional `weights` dict argument of `calculate_score`; a present key
overrides the corresponding global (`SCORE_SCALE` is not overridable). -/
structure WeightsOverride where
  weight_cos : Option ℚ := none
  weight_fuzz : Option ℚ := none
  pattern_boost : Option ℚ := none
  exact_bonus : Option ℚ := none
  prefix_bonus : Option ℚ := none
  category_boost : Option ℚ := none
deriving DecidableEq

def applyWeights (cfg : ScoreConfig) : Option WeightsOverride → ScoreConfig
  | none => cfg
  | some w =>
    { weight_cos := w.weight_cos.getD cfg.weight_cos,
      weight_fuzz := w.weight_fuzz.getD cfg.weight_fuzz,
      pattern_boost := w.pattern_boost.getD cfg.pattern_boost,
      exact_bonus := w.exact_bonus.getD cfg.exact_bonus,
      prefix_bonus := w.prefix_bonus.getD cfg.prefix_bonus,
      category_boost := w.category_boost.getD cfg.category_boost,
      score_scale := cfg.score_scale }

/-- The truthiness/equality test of the category-boost guard:
`user_category and qa_category and user_category_conf` followed by
`str(uc).strip().lower() == str(qc).strip().lower()`. -/
def catBoostApplies (uc qc : Option String) (conf : ℚ) : Bool :=
  match uc, qc with
  | some u, some q =>
    (u != "") && (q != "") && (conf != 0) &&
    ((pyStrip u.toList).map pyLowerChar == (pyStrip q.toList).map pyLowerChar)
  | _, _ => false

/-- Base score `base = WEIGHT_COS * c01 + WEIGHT_FUZZ * tf`, clamped to `[0, 1]`
(`c01 = (c + 1) / 2`, `tf = token_set_ratio / 100`). -/
noncomputable def scoreBase (cfg : ScoreConfig) (ua qb : List ℚ)
    (user_norm qa_norm : String) : ℝ :=
  max 0 (min 1
    (((cfg.weight_cos : ℚ) : ℝ) * ((cosSim ua qb + 1) / 2) +
     ((cfg.weight_fuzz : ℚ) : ℝ) * (((fuzzTokenSet user_norm qa_norm : ℚ) : ℝ) / 100)))

/-- Length ratio `len_ratio = min(len) / max(len)` (`1.0` on the guarded zero
denominator). -/
def lenRatioOf (user_norm qa_norm : String) : ℚ :=
  if 0 < max user_norm.length qa_norm.length then
    (min user_norm.length qa_norm.length : ℚ) /
      (max user_norm.length qa_norm.length : ℚ)
  else 1

/-- The character-length-ratio penalty block of `calculate_score`. -/
noncomputable def lenPenaltyStep (base : ℝ) (user_norm qa_norm : String) : ℝ :=
  if user_norm ≠ "" ∧ qa_norm ≠ "" then
    if lenRatioOf user_norm qa_norm < 0.5 then
      base * (((1 - (1 - lenRatioOf user_norm qa_norm * 2) * 0.3 : ℚ)) : ℝ)
    else base
  else base

/-- The domain-keyword pattern-boost block. -/
noncomputable def patternStep (cfg : ScoreConfig) (base : ℝ)
    (user_norm qa_norm : String) : ℝ :=
  if pattern_matches user_norm || pattern_matches qa_norm then
    min 1 (base + ((cfg.pattern_boost : ℚ) : ℝ))
  else base

/-- The soft category-agreement boost block. -/
noncomputable def categoryStep (cfg : ScoreConfig) (base : ℝ)
    (uc qc : Option String) (conf : ℚ) : ℝ :=
  if catBoostApplies uc qc conf then
    min 1 (base + ((cfg.category_boost : ℚ) : ℝ) * ((conf : ℚ) : ℝ))
  else base

/-- The exact / prefix bonus block (`if ... elif ...`). -/
noncomputable def bonusStep (cfg : ScoreConfig) (base : ℝ)
    (user_norm qa_norm : String) (exactFlag prefixFlag : Bool) : ℝ :=
  if exactFlag ∧ user_norm ≠ "" ∧ qa_norm ≠ "" ∧ user_norm = qa_norm then
    min 1 (base + ((cfg.exact_bonus : ℚ) : ℝ))
  else if prefixFlag ∧ user_norm ≠ "" ∧ qa_norm ≠ "" ∧
      user_norm.toList.isPrefixOf qa_norm.toList then
    min 1 (base + ((cfg.prefix_bonus : ℚ) : ℝ))
  else base

/-- Function `calculate_score`, written as the composition of its blocks (one helper
definition per block of the source function, applied in source order).
Embeddings are `Option (List ℚ)` (`None` possible); a dimension mismatch
makes `np.dot` raise, which the source catches and turns into 0.  The final
line clamps `base * SCORE_SCALE` to `[0, 100]`. -/
noncomputable def calculate_score (cfg : ScoreConfig)
    (user_embedding qa_embedding : Option (List ℚ))
    (user_norm qa_norm : String)
    (user_category : Option String := none) (user_category_conf : ℚ := 0)
    (qa_category : Option String := none)
    (exactFlag : Bool := false) (prefixFlag : Bool := false)
    (weights : Option WeightsOverride := none) : ℝ :=
  match user_embedding, qa_embedding with
  | none, _ => 0
  | some _, none => 0
  | some ua, some qb =>
    if ua.length ≠ qb.length then 0
    else
      max 0 (min 100
        (bonusStep (applyWeights cfg weights)
          (categoryStep (applyWeights cfg weights)
            (patternStep (applyWeights cfg weights)
              (lenPenaltyStep
                (scoreBase (applyWeights cfg weights) ua qb user_norm qa_norm)
                user_norm qa_norm)
              user_norm qa_norm)
            user_category qa_category user_category_conf)
          user_norm qa_norm exactFlag prefixFlag *
         (((applyWeights cfg weights).score_scale : ℚ) : ℝ)))

/-! ## Generic strict-argmax fold

Both `find_best_match` and `predict_category` keep a running best with a
strict `>` update; this is the shared skeleton. -/

def argFold {α β γ : Type} [LinearOrder β] (f : α → β) (sel : α → γ) :
    List α → β → γ → β × γ
  | [], b, s => (b, s)
  | a :: l, b, s =>
    if f a > b then argFold f sel l (f a) (sel a) else argFold f sel l b s

/-- The element the strict-`>` fold ends on: the first element whose value
exceeds the running bound and is not later strictly exceeded. -/
def firstMaxFrom {α β : Type} [LinearOrder β] (f : α → β) :
    List α → β → Option α
  | [], _ => none
  | a :: l, b =>
    if f a > b then
      match firstMaxFrom f l (f a) with
      | some m => some m
      | none => some a
    else firstMaxFrom f l b

/-! ## Category predictor (`src/category_predictor.py`) -/

/-- Table `CATEGORY_KEYWORDS`, in `dict` order, each pattern list transcribed
entry by entry (duplicates included, exactly as in the source). -/
def CATEGORY_KEYWORDS : List (String × List String) :=
  [ ("REGISTRATION",
     ["سجل", "التسجيل", "تسجيل", "تسجل", "التسجيلات", "الاوراق", "اوراق",
      "ورقة", "مطلوب", "تحويل", "جواب تحويل", "لا مانع", "استمارة", "نموذج",
      "فرقة", "الفرقة", "تعديل بيانات", "بيان نجاح", "محول", "انقل", "نقل",
      "محل الاقامة", "محل الإقامة", "محل الاقامه", "تقديم", "إجراءات",
      "اجراءات", "الكتروني", "إلكتروني", "موقع", "الموقع"]),
    ("ATTENDANCE",
     ["غياب", "حضور", "اغيب", "حاضر", "يوم غياب", "ايام غياب", "اجاز",
      "اجازة", "مقدرش", "متعذر", "معذور", "غيبت", "الغياب", "حضر", "تحضر",
      "تحضير", "ما حضرش", "ماحضرتش", "هغيب", "هغيب", "هحضر", "محاضرة",
      "محاضره", "التحضير", "ظرف", "طارئ", "طارى", "مانع", "عذر"]),
    ("DELIVERIES",
     ["بحث", "تسليم", "التسليمات", "التسليم", "الامتحان", "امتحان", "اسئلة",
      "سؤال", "مشروع", "بحث فردي", "تقرير", "لازم اقدم", "موعد الامتحان",
      "امتي الامتحان", "اسيله", "اسئله", "امتحانات", "اختبار", "الاختبار",
      "تقديم", "تقدم", "بحث", "البحث", "ابحاث", "ابحاث", "تقارير", "مشاريع",
      "وظائف", "وظيفه"]),
    ("FEES",
     ["رسوم", "دفع", "مصاريف", "فلوس", "جنيه", "مبلغ", "رسوم الحجز",
      "قيمة الرسوم", "تسديد", "الرسوم", "المصاريف", "الفلوس", "دفع", "تدفع",
      "ادفع", "الدفع", "الدفعات", "تحويل بنكي", "تحويل بنكى", "بطاقة",
      "بطاقه", "كريدت", "credit", "payment", "pay", "المبلغ", "القيمة",
      "التكلفة", "التكلفه", "سعر", "الاسعار", "الاسعار", "ثمن", "سعر",
      "تكلف", "يكلف", "التكلف", "المطلوب", "المطلوبه"]),
    ("LOCATION",
     ["فين", "اين", "مكان", "مكان الادارة", "المكان", "فين الادارة",
      "اين الادارة", "مكان الدورة", "عنوان", "العنوان", "الموقع", "موقع",
      "خريطة", "الخريطة", "البناء", "المبنى", "مبنى", "دور", "الطابق",
      "طابق", "شقة", "شقه", "غرفة", "غرفه", "مكتب", "المكتب", "الاداره",
      "الادارة", "إدارة", "اداره", "إداره"]),
    ("GENERAL",
     ["ممكن", "ينفع", "هل", "ازاي", "كيفية", "كيف", "كيفية التسجيل",
      "طريقة", "طريقه", "شرح", "توضيح", "اعرف", "عايز", "عوز", "عاوز",
      "اريد", "أريد", "ابغى", "ابغي", "محتاج", "محتاجه", "رغبة", "رغبه",
      "استفسار", "استفسارات"]) ]

/-- Occurrence of the compiled pattern `(?<!\S)(pat)(?!\S)` (whitespace
lookarounds, `IGNORECASE`): the literal `pat` at a position not preceded and
not followed by a non-whitespace character. -/
def wbOccurs (p : List Char) (prev : Option Char) : List Char → Bool
  | [] =>
    (match prev with | none => true | some d => pyIsSpace d) && ciPrefixAt p []
  | c :: rest =>
    ((match prev with | none => true | some d => pyIsSpace d) &&
      ciPrefixAt p (c :: rest) &&
      (match ((c :: rest).drop p.length).head? with
       | none => true
       | some d => pyIsSpace d)) ||
    wbOccurs p (some c) rest

/-- Search `patt.search(text)` for a compiled category keyword pattern. -/
def wbMatches (p : String) (l : List Char) : Bool := wbOccurs p.toList none l

/-- Python `min` on two numbers (spelled out so the kernel can evaluate it). -/
def pyMin (a b : ℚ) : ℚ := if a ≤ b then a else b

/-- Function `predict_category`. -/
def predict_category (text : String) (is_normalized : Bool := false) :
    Option String × ℚ :=
  if text = "" then (none, 0)
  else
    let t := if is_normalized then text else normalize_ar text
    if pySplit t.toList = [] then (none, 0)
    else
      let category_scores : List (String × Nat) := CATEGORY_KEYWORDS.map
        (fun cp => (cp.1, cp.2.countP (fun p => wbMatches p t.toList)))
      let best : Nat × Option String :=
        argFold Prod.snd (fun cp => some cp.1) category_scores 0 none
      if 0 < best.1 then
        (best.2, pyMin 0.95 (0.5 + (best.1 : ℚ) * 0.1))
      else (none, 0)

/-! ## Matching engine (`src/match.py`) -/

/-- One element of the `qas` list handed to `find_best_match`: a Python dict
whose possible keys are the fields below; an absent key is `none`
(`dict.get` then returns `None`). -/
structure QADict where
  id : Option Int := none
  qa_id : Option Int := none
  question : Option String := none
  question_norm : Option String := none
  embedding : Option (List ℚ) := none
  answer : Option String := none
  category : Option String := none
deriving DecidableEq

/-- Function `load_embedding`: `None` becomes the empty array, a stored blob
deserializes to its vector. -/
def load_embedding : Option (List ℚ) → List ℚ
  | none => []
  | some v => v

/-- The `emb` taken per entry in the `find_best_match` loop. -/
def embOf (is_loaded : Bool) (qa : QADict) : List ℚ :=
  if is_loaded then qa.embedding.getD [] else load_embedding qa.embedding

structure MatchResult where
  qa_id : Int
  score : ℝ

/-- The score `find_best_match` computes for one entry (the external
sentence-embedding model is the opaque parameter `embedFn`). -/
noncomputable def fbmScore (embedFn : String → List ℚ) (q : String)
    (il : Bool) (qa : QADict) : ℝ :=
  calculate_score defaultConfig (some (embedFn (normalize_ar q)))
    (some (embOf il qa)) (normalize_ar q) (qa.question_norm.getD "")
    (predict_category (normalize_ar q) true).1
    (predict_category (normalize_ar q) true).2
    qa.category true true none

/-- Whether an entry participates in scoring (`len(emb) > 0`). -/
def fbmUsable (il : Bool) (qa : QADict) : Bool :=
  decide (0 < (embOf il qa).length)

/-- Function `find_best_match`. -/
noncomputable def find_best_match (embedFn : String → List ℚ)
    (user_question : String) (qas : List QADict)
    (is_loaded : Bool := false) : Option MatchResult :=
  if qas = [] ∨ user_question = "" then none
  else
    let user_norm := normalize_ar user_question
    let user_embedding := embedFn user_norm
    let pc := predict_category user_norm true
    let r := qas.foldl (fun (st : ℝ × Option Int) qa =>
      let emb := embOf is_loaded qa
      if 0 < emb.length then
        let score := calculate_score defaultConfig (some user_embedding)
          (some emb) user_norm (qa.question_norm.getD "") pc.1 pc.2
          qa.category true true none
        if score > st.1 then (score, qa.qa_id) else st
      else st) (-1, none)
    match r.2 with
    | some i => some ⟨i, r.1⟩
    | none => none

/-! ## Corpus cache (`src/cache.py`) -/

/-- One row of the `qa` table (the SQLite storage collaborator).
`category` is nullable; `embedding` is a nullable blob, modelled by the
vector it deserializes to. -/
structure DBRow where
  id : Int
  question : String
  question_norm : String
  embedding : Option (List ℚ) := none
  answer : String
  category : Option String := none
deriving DecidableEq

def insertByIdAsc (r : DBRow) : List DBRow → List DBRow
  | [] => [r]
  | x :: xs => if r.id ≤ x.id then r :: x :: xs else x :: insertByIdAsc r xs

/-- Model of the SQL `ORDER BY id ASC` (stable sort by id). -/
def orderByIdAsc (l : List DBRow) : List DBRow := l.foldr insertByIdAsc []

/-- The dict built per row in `QACache._load_from_db`: exactly the keys
`id`, `question`, `question_norm`, `embedding`, `answer`, `category`
(note: no `qa_id` key). -/
def rowToDict (r : DBRow) : QADict :=
  { id := some r.id, question := some r.question,
    question_norm := some r.question_norm, embedding := r.embedding,
    answer := some r.answer, category := some (r.category.getD "") }

/-- Loader `QACache._load_from_db`: `SELECT ... ORDER BY id ASC` over the current
table contents, one dict per row. -/
def QACache.load_from_db (table : List DBRow) : List QADict :=
  (orderByIdAsc table).map rowToDict

/-- The mutable fields of a `QACache` (the lock serializes access; each
public call is one atomic step on this state). -/
structure QACacheState where
  ttl : ℚ
  last_loaded : ℚ
  qas : List QADict
deriving DecidableEq

/-- Method `QACache.get_qas` as one locked step.  `load` is the outcome of the
`_load_from_db` attempt (`none` = the DB call raised), `now` the current
time.  Returns the list handed to the caller, the state afterwards, and
whether the loader was invoked. -/
def QACache.get_qas (load : Option (List DBRow)) (now : ℚ)
    (st : QACacheState) : List QADict × QACacheState × Bool :=
  if st.qas = [] ∨ (now - st.last_loaded) > st.ttl then
    match load with
    | some table =>
      let qas := QACache.load_from_db table
      (qas, { st with qas := qas, last_loaded := now }, true)
    | none => (st.qas, st, true)
  else (st.qas, st, false)

/-- Method `QACache.invalidate`. -/
def QACache.invalidate (st : QACacheState) : QACacheState :=
  { st with last_loaded := 0 }

/-- Method `QACache.force_reload` (failure keeps the old cache). -/
def QACache.force_reload (load : Option (List DBRow)) (now : ℚ)
    (st : QACacheState) : QACacheState :=
  match load with
  | some table =>
    { st with qas := QACache.load_from_db table, last_loaded := now }
  | none => st

/-- A sequence of `get_qas` calls at the given times (each sees the same
loader outcome); returns the final state and how often the loader ran. -/
def QACache.get_qas_runs (load : Option (List DBRow)) (times : List ℚ)
    (st : QACacheState) : QACacheState × Nat :=
  times.foldl (fun acc t =>
    let r := QACache.get_qas load t acc.1
    (r.2.1, acc.2 + (if r.2.2 then 1 else 0))) (st, 0)

/-! ## Spec-side definitions used in theorem statements -/

/-- The confidence formula `min(0.95, 0.5 + 0.1 * k)` as a function of a
match count. -/
def confFormula (k : Nat) : ℚ := pyMin 0.95 (0.5 + (k : ℚ) * 0.1)

/-- Number of keyword-list entries of a category that match the text (the
count the source accumulates: one point per list entry whose pattern finds a
match). -/
def catCount (t : String) (pats : List String) : Nat :=
  pats.countP (fun p => wbMatches p t.toList)

/-- Number of *distinct* patterns of a category that match the text — the
quantity named by the claim (duplicate list entries collapse). -/
def catCountDistinct (t : String) (pats : List String) : Nat :=
  pats.dedup.countP (fun p => wbMatches p t.toList)

/-! ## Concrete inputs for witnesses and counterexamples -/

/-- A usable corpus entry (in the `find_best_match` input format). -/
def qaU : QADict :=
  { qa_id := some 5, question_norm := some "س", embedding := some [1],
    category := some "GENERAL" }

/-- An entry without embedding (skipped by the loop). -/
def qaN : QADict :=
  { qa_id := some 6, question_norm := some "ص", embedding := none }

/-- Two DB rows (distinct primary-key ids, valid embeddings), given in
descending id order so that the `ORDER BY` is visible. -/
def c9rows : List DBRow :=
  [ { id := 2, question := "س2", question_norm := "ن2",
      embedding := some [1], answer := "ج2", category := some "c" },
    { id := 1, question := "س1", question_norm := "ن1",
      embedding := some [1], answer := "ج1", category := some "c" } ]

/-- A cache state holding one previously loaded entry. -/
def stOne : QACacheState :=
  { ttl := 30, last_loaded := 0, qas := [rowToDict (c9rows.get ⟨1, by decide⟩)] }

/-- The text `predict_category` actually scores: the input itself when
`is_normalized`, otherwise its normalization (the `text = normalize_ar(text)`
reassignment). -/
def predictInput (text : String) (b : Bool) : String :=
  if b then text else normalize_ar text

/-! # Theorems

First the generic lemmas about the strict-argmax fold skeleton. -/

theorem argFold_eq_firstMaxFrom {α β γ : Type} [LinearOrder β]
    (f : α → β) (sel : α → γ) (l : List α) (b : β) (s : γ) :
    argFold f sel l b s =
      match firstMaxFrom f l b with
      | none => (b, s)
      | some m => (f m, sel m) := by
  induction l generalizing b s with
  | nil => rfl
  | cons a l ih =>
    simp only [argFold, firstMaxFrom]
    by_cases h : f a > b
    · rw [if_pos h, if_pos h, ih]
      cases hm : firstMaxFrom f l (f a) <;> simp
    · rw [if_neg h, if_neg h, ih]

theorem firstMaxFrom_eq_none_iff {α β : Type} [LinearOrder β]
    (f : α → β) (l : List α) (b : β) :
    firstMaxFrom f l b = none ↔ ∀ a ∈ l, f a ≤ b := by
  induction l generalizing b with
  | nil => simp [firstMaxFrom]
  | cons a l ih =>
    simp only [firstMaxFrom]
    by_cases h : f a > b
    · rw [if_pos h]
      constructor
      · intro hsome
        cases hm : firstMaxFrom f l (f a) <;> rw [hm] at hsome <;> simp at hsome
      · intro hall
        exact absurd h (not_lt.mpr (hall a (List.mem_cons_self a l)))
    · rw [if_neg h]
      rw [ih]
      constructor
      · intro hall c hc
        rcases List.mem_cons.mp hc with rfl | hc
        · exact not_lt.mp h
        · exact hall c hc
      · intro hall c hc
        exact hall c (List.mem_cons_of_mem a hc)

theorem firstMaxFrom_spec {α β : Type} [LinearOrder β] (f : α → β) :
    ∀ (l : List α) (b : β) (m : α), firstMaxFrom f l b = some m →
    m ∈ l ∧ b < f m ∧ ∀ a ∈ l, f a ≤ f m := by
  intro l
  induction l with
  | nil => intro b m hm; simp [firstMaxFrom] at hm
  | cons a l ih =>
    intro b m hm
    simp only [firstMaxFrom] at hm
    by_cases h : f a > b
    · rw [if_pos h] at hm
      cases hinner : firstMaxFrom f l (f a) with
      | some m' =>
        rw [hinner] at hm
        rw [Option.some.inj hm] at hinner
        obtain ⟨hmem, hlt, hmax⟩ := ih (f a) m hinner
        refine ⟨List.mem_cons_of_mem a hmem, lt_trans h hlt, ?_⟩
        intro c hc
        rcases List.mem_cons.mp hc with rfl | hc
        · exact le_of_lt hlt
        · exact hmax c hc
      | none =>
        rw [hinner] at hm
        obtain rfl := Option.some.inj hm
        refine ⟨List.mem_cons_self a l, h, ?_⟩
        intro c hc
        rcases List.mem_cons.mp hc with rfl | hc
        · exact le_refl _
        · exact (firstMaxFrom_eq_none_iff f l (f a)).mp hinner c hc
    · rw [if_neg h] at hm
      obtain ⟨hmem, hlt, hmax⟩ := ih b m hm
      refine ⟨List.mem_cons_of_mem a hmem, hlt, ?_⟩
      intro c hc
      rcases List.mem_cons.mp hc with rfl | hc
      · exact le_trans (not_lt.mp h) (le_of_lt hlt)
      · exact hmax c hc

theorem firstMaxFrom_decomp {α β : Type} [LinearOrder β] (f : α → β) :
    ∀ (l : List α) (b : β) (m : α), firstMaxFrom f l b = some m →
    ∃ l1 l2, l = l1 ++ m :: l2 ∧ ∀ x ∈ l1, f x < f m := by
  intro l
  induction l with
  | nil => intro b m hm; simp [firstMaxFrom] at hm
  | cons a l ih =>
    intro b m hm
    simp only [firstMaxFrom] at hm
    by_cases h : f a > b
    · rw [if_pos h] at hm
      cases hinner : firstMaxFrom f l (f a) with
      | some m' =>
        rw [hinner] at hm
        rw [Option.some.inj hm] at hinner
        obtain ⟨l1, l2, heq, hlt⟩ := ih (f a) m hinner
        refine ⟨a :: l1, l2, by rw [heq]; rfl, ?_⟩
        intro x hx
        rcases List.mem_cons.mp hx with rfl | hx
        · exact (firstMaxFrom_spec f l (f x) m hinner).2.1
        · exact hlt x hx
      | none =>
        rw [hinner] at hm
        obtain rfl := Option.some.inj hm
        exact ⟨[], l, rfl, by simp⟩
    · rw [if_neg h] at hm
      obtain ⟨l1, l2, heq, hlt⟩ := ih b m hm
      refine ⟨a :: l1, l2, by rw [heq]; rfl, ?_⟩
      intro x hx
      rcases List.mem_cons.mp hx with rfl | hx
      · exact lt_of_le_of_lt (not_lt.mp h) (firstMaxFrom_spec f l b m hm).2.1
      · exact hlt x hx

theorem firstMaxFrom_of_decomp {α β : Type} [LinearOrder β]
    (f : α → β) (m : α) :
    ∀ (l1 : List α) (l2 : List α) (b : β),
    (∀ x ∈ l1, f x < f m) → (∀ x ∈ l2, f x ≤ f m) → b < f m →
    firstMaxFrom f (l1 ++ m :: l2) b = some m := by
  intro l1
  induction l1 with
  | nil =>
    intro l2 b _ h2 hb
    simp only [List.nil_append, firstMaxFrom, if_pos hb]
    rw [(firstMaxFrom_eq_none_iff f l2 (f m)).mpr h2]
  | cons x l1 ih =>
    intro l2 b h1 h2 hb
    have hxm : f x < f m := h1 x (List.mem_cons_self x l1)
    simp only [List.cons_append, firstMaxFrom]
    by_cases hx : f x > b
    · rw [if_pos hx]
      have hrec := ih l2 (f x) (fun y hy => h1 y (List.mem_cons_of_mem x hy)) h2 hxm
      simp only [List.append_eq] at hrec ⊢
      rw [hrec]
    · rw [if_neg hx]
      exact ih l2 b (fun y hy => h1 y (List.mem_cons_of_mem x hy)) h2 hb

theorem firstMaxFrom_map {α β γ : Type} [LinearOrder β]
    (g : α → γ) (f : γ → β) (l : List α) (b : β) :
    firstMaxFrom f (l.map g) b = (firstMaxFrom (fun a => f (g a)) l b).map g := by
  induction l generalizing b with
  | nil => rfl
  | cons a l ih =>
    simp only [List.map_cons, firstMaxFrom]
    by_cases h : f (g a) > b
    · rw [if_pos h, if_pos h, ih]
      cases hm : firstMaxFrom (fun a => f (g a)) l (f (g a)) <;> simp
    · rw [if_neg h, if_neg h, ih]

/-! ## Bounds of the similarity scorer -/

theorem calculate_score_nonneg (cfg : ScoreConfig)
    (ue qe : Option (List ℚ)) (un qn : String) (uc : Option String)
    (conf : ℚ) (qc : Option String) (ef pf : Bool)
    (w : Option WeightsOverride) :
    0 ≤ calculate_score cfg ue qe un qn uc conf qc ef pf w := by
  rcases ue with _ | ua <;> rcases qe with _ | qb <;>
    simp only [calculate_score]
  · exact le_refl 0
  · exact le_refl 0
  · exact le_refl 0
  · split
    · exact le_refl 0
    · exact le_max_left 0 _

theorem calculate_score_le_100 (cfg : ScoreConfig)
    (ue qe : Option (List ℚ)) (un qn : String) (uc : Option String)
    (conf : ℚ) (qc : Option String) (ef pf : Bool)
    (w : Option WeightsOverride) :
    calculate_score cfg ue qe un qn uc conf qc ef pf w ≤ 100 := by
  rcases ue with _ | ua <;> rcases qe with _ | qb <;>
    simp only [calculate_score]
  · norm_num
  · norm_num
  · norm_num
  · split
    · norm_num
    · exact max_le (by norm_num) (min_le_left 100 _)

/-! ## Characterization of the `find_best_match` loop -/

theorem fbm_fold (embedFn : String → List ℚ) (q : String) (il : Bool) :
    ∀ (l : List QADict) (st : ℝ × Option Int),
    List.foldl (fun (st : ℝ × Option Int) qa =>
      if 0 < (embOf il qa).length then
        if calculate_score defaultConfig (some (embedFn (normalize_ar q)))
            (some (embOf il qa)) (normalize_ar q) (qa.question_norm.getD "")
            (predict_category (normalize_ar q) true).1
            (predict_category (normalize_ar q) true).2
            qa.category true true none > st.1 then
          (calculate_score defaultConfig (some (embedFn (normalize_ar q)))
            (some (embOf il qa)) (normalize_ar q) (qa.question_norm.getD "")
            (predict_category (normalize_ar q) true).1
            (predict_category (normalize_ar q) true).2
            qa.category true true none, qa.qa_id)
        else st
      else st) st l
    = argFold (fbmScore embedFn q il) QADict.qa_id
        (l.filter (fbmUsable il)) st.1 st.2 := by
  intro l
  induction l with
  | nil => intro st; rfl
  | cons qa l ih =>
    intro st
    rw [List.foldl_cons, List.filter_cons]
    by_cases hu : 0 < (embOf il qa).length
    · have hb : fbmUsable il qa = true := by
        simp [fbmUsable, hu]
      rw [if_pos hu, if_pos hb]
      simp only [argFold]
      by_cases hs : fbmScore embedFn q il qa > st.1
      · rw [if_pos hs]
        rw [if_pos (show calculate_score defaultConfig
            (some (embedFn (normalize_ar q))) (some (embOf il qa))
            (normalize_ar q) (qa.question_norm.getD "")
            (predict_category (normalize_ar q) true).1
            (predict_category (normalize_ar q) true).2
            qa.category true true none > st.1 from hs)]
        exact ih _
      · rw [if_neg hs]
        rw [if_neg (show ¬(calculate_score defaultConfig
            (some (embedFn (normalize_ar q))) (some (embOf il qa))
            (normalize_ar q) (qa.question_norm.getD "")
            (predict_category (normalize_ar q) true).1
            (predict_category (normalize_ar q) true).2
            qa.category true true none > st.1) from hs)]
        exact ih st
    · have hb : ¬(fbmUsable il qa = true) := by
        simp [fbmUsable, hu]
      rw [if_neg hu, if_neg hb]
      exact ih st

theorem find_best_match_char (embedFn : String → List ℚ) (q : String)
    (l : List QADict) (il : Bool) :
    find_best_match embedFn q l il =
      if l = [] ∨ q = "" then none
      else
        match firstMaxFrom (fbmScore embedFn q il)
            (l.filter (fbmUsable il)) (-1 : ℝ) with
        | none => none
        | some m => m.qa_id.map (fun i => ⟨i, fbmScore embedFn q il m⟩) := by
  by_cases hg : l = [] ∨ q = ""
  · rw [if_pos hg]
    simp only [find_best_match, if_pos hg]
  · rw [if_neg hg]
    simp only [find_best_match, if_neg hg]
    rw [fbm_fold embedFn q il l ((-1 : ℝ), (none : Option Int))]
    rw [argFold_eq_firstMaxFrom]
    cases hm : firstMaxFrom (fbmScore embedFn q il)
        (l.filter (fbmUsable il)) (-1 : ℝ) with
    | none => rfl
    | some m =>
      dsimp only
      cases m.qa_id <;> rfl

/-- C2: for every query and corpus list, permuting the corpus never
changes which `qa_id` `find_best_match` returns as long as a single entry
attains the maximal score; and in general the entry appearing first in the
given order among those attaining the maximal score wins (the update uses
strict `score > best_score`). -/
theorem C2_find_best_match_order (embedFn : String → List ℚ) (q : String)
    (il : Bool) :
    (∀ l l' : List QADict, l.Perm l' →
      (∀ a ∈ l, ∀ c ∈ l, fbmUsable il a = true → fbmUsable il c = true →
        (∀ e ∈ l, fbmUsable il e = true →
          fbmScore embedFn q il e ≤ fbmScore embedFn q il a) →
        (∀ e ∈ l, fbmUsable il e = true →
          fbmScore embedFn q il e ≤ fbmScore embedFn q il c) →
        a = c) →
      (find_best_match embedFn q l il).map MatchResult.qa_id =
        (find_best_match embedFn q l' il).map MatchResult.qa_id) ∧
    (q ≠ "" → ∀ (l : List QADict) (m : QADict) (l1 l2 : List QADict),
      l.filter (fbmUsable il) = l1 ++ m :: l2 →
      (∀ a ∈ l1, fbmScore embedFn q il a < fbmScore embedFn q il m) →
      (∀ a ∈ l2, fbmScore embedFn q il a ≤ fbmScore embedFn q il m) →
      find_best_match embedFn q l il =
        m.qa_id.map (fun i => ⟨i, fbmScore embedFn q il m⟩)) := by
  have hpos : ∀ qa : QADict, (-1 : ℝ) < fbmScore embedFn q il qa := by
    intro qa
    have h0 : (0 : ℝ) ≤ fbmScore embedFn q il qa := by
      simp only [fbmScore]
      exact calculate_score_nonneg _ _ _ _ _ _ _ _ _ _ _
    linarith
  constructor
  · intro l l' hperm huniq
    by_cases hq : q = ""
    · rw [find_best_match_char, find_best_match_char,
        if_pos (Or.inr hq), if_pos (Or.inr hq)]
    · by_cases hl : l = []
      · have hl' : l' = [] := by
          subst hl
          exact hperm.symm.eq_nil
        rw [find_best_match_char, find_best_match_char,
          if_pos (Or.inl hl), if_pos (Or.inl hl')]
      · have hl' : l' ≠ [] := by
          intro h
          exact hl (by rw [h] at hperm; exact hperm.eq_nil)
        rw [find_best_match_char, find_best_match_char,
          if_neg (by push_neg; exact ⟨hl, hq⟩),
          if_neg (by push_neg; exact ⟨hl', hq⟩)]
        have hUU' : (l.filter (fbmUsable il)).Perm (l'.filter (fbmUsable il)) :=
          hperm.filter _
        cases hm : firstMaxFrom (fbmScore embedFn q il)
            (l.filter (fbmUsable il)) (-1 : ℝ) with
        | none =>
          have hm' : firstMaxFrom (fbmScore embedFn q il)
              (l'.filter (fbmUsable il)) (-1 : ℝ) = none := by
            rw [firstMaxFrom_eq_none_iff] at hm ⊢
            intro a ha
            exact hm a (hUU'.mem_iff.mpr ha)
          rw [hm']
        | some m =>
          obtain ⟨hmem, hlt, hmax⟩ :=
            firstMaxFrom_spec (fbmScore embedFn q il) _ _ m hm
          cases hm' : firstMaxFrom (fbmScore embedFn q il)
              (l'.filter (fbmUsable il)) (-1 : ℝ) with
          | none =>
            exfalso
            rw [firstMaxFrom_eq_none_iff] at hm'
            exact absurd (hm' m (hUU'.mem_iff.mp hmem)) (not_le.mpr hlt)
          | some m2 =>
            obtain ⟨hmem2, hlt2, hmax2⟩ :=
              firstMaxFrom_spec (fbmScore embedFn q il) _ _ m2 hm'
            have hmem2l : m2 ∈ l.filter (fbmUsable il) :=
              hUU'.mem_iff.mpr hmem2
            have hf1 := List.mem_filter.mp hmem
            have hf2 := List.mem_filter.mp hmem2l
            have heq : m = m2 := by
              apply huniq m hf1.1 m2 hf2.1 hf1.2 hf2.2
              · intro e he hu
                exact hmax e (List.mem_filter.mpr ⟨he, hu⟩)
              · intro e he hu
                calc fbmScore embedFn q il e
                    ≤ fbmScore embedFn q il m :=
                      hmax e (List.mem_filter.mpr ⟨he, hu⟩)
                  _ ≤ fbmScore embedFn q il m2 :=
                      hmax2 m (hUU'.mem_iff.mp hmem)
            rw [heq]
  · intro hq l m l1 l2 hdec h1 h2
    have hlne : l ≠ [] := by
      intro h
      subst h
      simp only [List.filter_nil] at hdec
      exact (List.append_ne_nil_of_right_ne_nil l1 (by simp)) hdec.symm
    rw [find_best_match_char, if_neg (by push_neg; exact ⟨hlne, hq⟩), hdec,
      firstMaxFrom_of_decomp (fbmScore embedFn q il) m l1 l2 (-1 : ℝ)
        h1 h2 (hpos m)]

/-- Witness for C2 at a concrete two-entry corpus (the second entry carries
no embedding, so the maximal scorer is unique). -/
theorem C2_find_best_match_order_witness :
    ((find_best_match (fun _ => [1]) "س" [qaU, qaN] false).map
        MatchResult.qa_id =
      (find_best_match (fun _ => [1]) "س" [qaN, qaU] false).map
        MatchResult.qa_id) ∧
    find_best_match (fun _ => [1]) "س" [qaN, qaU] false =
      qaU.qa_id.map (fun i => ⟨i, fbmScore (fun _ => [1]) "س" false qaU⟩) := by
  constructor
  · apply (C2_find_best_match_order (fun _ => [1]) "س" false).1
    · decide
    · intro a ha c hc hua huc _ _
      rcases List.mem_cons.mp ha with rfl | ha
      · rcases List.mem_cons.mp hc with rfl | hc
        · rfl
        · rcases List.mem_cons.mp hc with rfl | hc
          · exact absurd huc (by decide)
          · simp at hc
      · rcases List.mem_cons.mp ha with rfl | ha
        · exact absurd hua (by decide)
        · simp at ha
  · apply (C2_find_best_match_order (fun _ => [1]) "س" false).2
      (by decide) [qaN, qaU] qaU [] []
    · decide
    · intro a ha
      simp at ha
    · intro a ha
      simp at ha

/-- C10: for every corpus list (and any embedding function — nothing is
embedded or scored), `find_best_match` returns `none` when the raw query is
the empty string: the guard `if not qas or not user_question` fires before
any other work. -/
theorem C10_empty_query_none (embedFn : String → List ℚ)
    (qas : List QADict) (il : Bool) :
    find_best_match embedFn "" qas il = none := by
  rw [find_best_match_char, if_pos (Or.inr rfl)]

/-- C4: if the reload attempt raises (`load = none`), `get_qas` serves
the previous snapshot unchanged, leaves the state unchanged, and a held
non-empty snapshot is never replaced by an empty one; `force_reload` also
leaves the state unchanged — for every prior state. -/
theorem C4_reload_failure_keeps_state (now : ℚ) (st : QACacheState)
    (h : st.qas ≠ []) :
    (QACache.get_qas none now st).1 = st.qas ∧
    (QACache.get_qas none now st).2.1 = st ∧
    (QACache.get_qas none now st).1 ≠ [] ∧
    QACache.force_reload none now st = st := by
  unfold QACache.get_qas QACache.force_reload
  by_cases hc : st.qas = [] ∨ (now - st.last_loaded) > st.ttl
  · rw [if_pos hc]
    exact ⟨rfl, rfl, h, rfl⟩
  · rw [if_neg hc]
    exact ⟨rfl, rfl, h, rfl⟩

/-- Witness for C4 at a concrete one-entry state. -/
theorem C4_reload_failure_keeps_state_witness :
    (QACache.get_qas none 100 stOne).1 = stOne.qas ∧
    (QACache.get_qas none 100 stOne).2.1 = stOne ∧
    (QACache.get_qas none 100 stOne).1 ≠ [] ∧
    QACache.force_reload none 100 stOne = stOne :=
  C4_reload_failure_keeps_state 100 stOne (by decide)

/-- C5, counterexample to the claim as stated: a *successful* load that
returned an empty corpus: the loader runs at time 0 (state updated,
`last_loaded = 0`), and the next `get_qas` at time 1 — within the TTL of
30 — invokes the loader again, because the reload condition
`not self._qas or ttl expired` also fires on an empty snapshot. -/
theorem C5_counterexample :
    (QACache.get_qas (some []) 0
        ({ ttl := 30, last_loaded := -100, qas := [] } : QACacheState)).2.2
      = true ∧
    (QACache.get_qas (some []) 0
        ({ ttl := 30, last_loaded := -100, qas := [] } : QACacheState)).2.1
      = { ttl := 30, last_loaded := 0, qas := [] } ∧
    ((1 : ℚ) - 0 ≤ 30) ∧
    (QACache.get_qas (some [])  1
        ({ ttl := 30, last_loaded := 0, qas := [] } : QACacheState)).2.2
      = true := by
  refine ⟨by decide, by decide, by norm_num, by decide⟩

/-- C5 as amended: after a successful load that produced a *non-empty*
snapshot (and with no intervening `invalidate`), a `get_qas` call within the
TTL does not invoke the loader and leaves the state unchanged; hence any
sequence of calls at times within the TTL invokes the loader zero times. -/
theorem C5_ttl_no_reload (load : Option (List DBRow)) (st : QACacheState)
    (hne : st.qas ≠ []) :
    (∀ now : ℚ, now - st.last_loaded ≤ st.ttl →
      QACache.get_qas load now st = (st.qas, st, false)) ∧
    (∀ times : List ℚ, (∀ t ∈ times, t - st.last_loaded ≤ st.ttl) →
      QACache.get_qas_runs load times st = (st, 0)) := by
  have hsingle : ∀ now : ℚ, now - st.last_loaded ≤ st.ttl →
      QACache.get_qas load now st = (st.qas, st, false) := by
    intro now hnow
    unfold QACache.get_qas
    rw [if_neg]
    push_neg
    exact ⟨hne, not_lt.mp (not_lt.mpr hnow)⟩
  refine ⟨hsingle, ?_⟩
  intro times htimes
  induction times with
  | nil => rfl
  | cons t ts ih =>
    have hstep := hsingle t (htimes t (List.mem_cons_self t ts))
    unfold QACache.get_qas_runs at ih ⊢
    rw [List.foldl_cons, hstep]
    simpa using ih (fun u hu => htimes u (List.mem_cons_of_mem t hu))

/-- Witness for C5 (amended) at a concrete state and call times. -/
theorem C5_ttl_no_reload_witness :
    QACache.get_qas none 5 stOne = (stOne.qas, stOne, false) ∧
    QACache.get_qas_runs none [1, 2] stOne = (stOne, 0) :=
  ⟨(C5_ttl_no_reload none stOne (by decide)).1 5 (by norm_num [stOne]),
   (C5_ttl_no_reload none stOne (by decide)).2 [1, 2] (by norm_num [stOne])⟩

/-- C8: `calculate_score` returns 0 whenever either embedding argument
is absent, whatever the remaining arguments are. -/
theorem C8_absent_embedding_zero (cfg : ScoreConfig)
    (ue qe : Option (List ℚ)) (un qn : String) (uc : Option String)
    (conf : ℚ) (qc : Option String) (ef pf : Bool)
    (w : Option WeightsOverride) (h : ue = none ∨ qe = none) :
    calculate_score cfg ue qe un qn uc conf qc ef pf w = 0 := by
  rcases ue with _ | ua <;> rcases qe with _ | qb <;>
    simp only [calculate_score]
  rcases h with h | h <;> simp at h

/-- Witness for C8, both sides of the disjunction. -/
theorem C8_absent_embedding_zero_witness :
    calculate_score defaultConfig none (some [1]) "ا" "ب" none 0 none
      true true none = 0 ∧
    calculate_score defaultConfig (some [1]) none "ا" "ب" none 0 none
      true true none = 0 :=
  ⟨C8_absent_embedding_zero _ _ _ _ _ _ _ _ _ _ _ (Or.inl rfl),
   C8_absent_embedding_zero _ _ _ _ _ _ _ _ _ _ _ (Or.inr rfl)⟩

/-- C7: for embeddings of matching non-zero dimension — and in fact for
every weight/boost configuration and all remaining arguments — the score is
in `[0, 100]` (the last line of `calculate_score` clamps). -/
theorem C7_score_in_range (cfg : ScoreConfig) (w : Option WeightsOverride)
    (ua qb : List ℚ) (un qn : String) (uc : Option String) (conf : ℚ)
    (qc : Option String) (ef pf : Bool)
    (_hdim : ua.length = qb.length) (_hne : ua ≠ []) :
    0 ≤ calculate_score cfg (some ua) (some qb) un qn uc conf qc ef pf w ∧
    calculate_score cfg (some ua) (some qb) un qn uc conf qc ef pf w ≤ 100 :=
  ⟨calculate_score_nonneg cfg (some ua) (some qb) un qn uc conf qc ef pf w,
   calculate_score_le_100 cfg (some ua) (some qb) un qn uc conf qc ef pf w⟩

/-- Witness for C7 at concrete one-dimensional embeddings. -/
theorem C7_score_in_range_witness :
    0 ≤ calculate_score defaultConfig (some [1]) (some [2]) "اب" "اب" none 0
      none true true none ∧
    calculate_score defaultConfig (some [1]) (some [2]) "اب" "اب" none 0
      none true true none ≤ 100 :=
  C7_score_in_range defaultConfig none [1] [2] "اب" "اب" none 0 none
    true true rfl (by decide)

/-- Helper: `find_best_match` returns `None` over any list whose entries lack the
`qa_id` key: every strict improvement stores `qa.get("qa_id") = None`, so
`best_qa_id` stays `None`. -/
theorem fbm_none_of_no_qa_id (embedFn : String → List ℚ) (q : String)
    (il : Bool) (l : List QADict) (h : ∀ qa ∈ l, qa.qa_id = none) :
    find_best_match embedFn q l il = none := by
  rw [find_best_match_char]
  by_cases hg : l = [] ∨ q = ""
  · rw [if_pos hg]
  · rw [if_neg hg]
    cases hm : firstMaxFrom (fbmScore embedFn q il)
        (l.filter (fbmUsable il)) (-1 : ℝ) with
    | none => rfl
    | some m =>
      have hmem := (firstMaxFrom_spec (fbmScore embedFn q il) _ _ m hm).1
      dsimp only
      rw [h m (List.mem_filter.mp hmem).1]
      rfl

/-- C9 (divergence witness): the snapshot `_load_from_db` builds from
two scoreable rows is in ascending id order, every entry participates in
scoring — yet `find_best_match` over that snapshot returns `none`, because
the snapshot keys the identifier as `id` while `find_best_match` reads
`qa.get("qa_id")`. -/
theorem C9_cache_snapshot_no_match :
    ((QACache.load_from_db c9rows).map QADict.id = [some 1, some 2]) ∧
    ((QACache.load_from_db c9rows).map QADict.qa_id = [none, none]) ∧
    (∀ qa ∈ QACache.load_from_db c9rows, fbmUsable false qa = true) ∧
    find_best_match (fun _ => [1]) "سؤال" (QACache.load_from_db c9rows)
      false = none := by
  refine ⟨by decide, by decide, by decide, ?_⟩
  exact fbm_none_of_no_qa_id _ _ _ _
    (by decide : ∀ qa ∈ QACache.load_from_db c9rows, qa.qa_id = none)

set_option maxRecDepth 1000000 in
/-- C1 (failing input): normalization is *not* idempotent:
`normalize_ar "دوره"` rewrites the synonym to the canonical term
`التربيةالعسكرية`, whose `ة` a second pass folds to `ه` — so applying
`normalize_ar` twice gives a different string.  (The synonym table's
replacement value is not itself in normalized form.) -/
theorem C1_normalize_not_idempotent :
    normalize_ar "دوره" = "التربيةالعسكرية" ∧
    normalize_ar (normalize_ar "دوره") = "التربيهالعسكريه" ∧
    normalize_ar (normalize_ar "دوره") ≠ normalize_ar "دوره" :=
  ⟨by decide, by decide, by decide⟩

/-! ## Lemmas for the exact-match score bound (C3) -/

theorem dotQ_self (v : List ℚ) : dotQ v v = sumSq v := by
  induction v with
  | nil => rfl
  | cons x xs ih =>
    simp only [dotQ, sumSq, List.zip_cons_cons, List.map_cons, List.sum_cons]
      at ih ⊢
    rw [ih]

theorem sumSq_nonneg (v : List ℚ) : 0 ≤ sumSq v := by
  induction v with
  | nil => simp [sumSq]
  | cons x xs ih =>
    simp only [sumSq, List.map_cons, List.sum_cons] at ih ⊢
    have := mul_self_nonneg x
    linarith

theorem cosSim_self (v : List ℚ) (h : sumSq v ≠ 0) : cosSim v v = 1 := by
  unfold cosSim
  rw [if_neg (mul_ne_zero h h), dotQ_self]
  have hnn : (0 : ℝ) ≤ ((sumSq v : ℚ) : ℝ) := by
    exact_mod_cast sumSq_nonneg v
  rw [Real.mul_self_sqrt hnn]
  exact div_self (by exact_mod_cast h)

theorem pySplitGo_mem : ∀ (fuel : Nat) (l : List Char) (t : List Char),
    t ∈ pySplitGo fuel l → t ≠ [] ∧ ∀ c ∈ t, pyIsSpace c = false := by
  intro fuel
  induction fuel with
  | zero => intro l t ht; simp [pySplitGo] at ht
  | succ fuel ih =>
    intro l t ht
    cases l with
    | nil => simp [pySplitGo] at ht
    | cons c rest =>
      simp only [pySplitGo] at ht
      by_cases hc : pyIsSpace c = true
      · rw [if_pos hc] at ht
        exact ih rest t ht
      · rw [if_neg hc] at ht
        rcases List.mem_cons.mp ht with rfl | ht
        · refine ⟨by simp, ?_⟩
          intro d hd
          rcases List.mem_cons.mp hd with rfl | hd
          · exact Bool.not_eq_true _ ▸ (by simpa using hc)
          · have := List.mem_takeWhile_imp hd
            simpa using this
        · exact ih _ t ht

theorem pySplitGo_ne_nil : ∀ (fuel : Nat) (l : List Char),
    l.length ≤ fuel → (∃ c ∈ l, pyIsSpace c = false) →
    pySplitGo fuel l ≠ [] := by
  intro fuel
  induction fuel with
  | zero =>
    intro l hlen ⟨c, hc, _⟩
    have : l = [] := List.length_eq_zero.mp (Nat.le_zero.mp hlen)
    subst this
    simp at hc
  | succ fuel ih =>
    intro l hlen ⟨c, hc, hcs⟩
    cases l with
    | nil => simp at hc
    | cons d rest =>
      simp only [pySplitGo]
      by_cases hd : pyIsSpace d = true
      · rw [if_pos hd]
        rcases List.mem_cons.mp hc with rfl | hc
        · rw [hd] at hcs; simp at hcs
        · exact ih rest (by simpa using Nat.le_of_succ_le_succ hlen)
            ⟨c, hc, hcs⟩
      · rw [if_neg hd]
        simp

theorem joinSpace_exists_nonspace :
    ∀ ts : List (List Char), ts ≠ [] →
    (∀ t ∈ ts, t ≠ [] ∧ ∀ c ∈ t, pyIsSpace c = false) →
    ∃ c ∈ joinSpace ts, pyIsSpace c = false := by
  intro ts hne hall
  cases ts with
  | nil => exact absurd rfl hne
  | cons t ts' =>
    obtain ⟨htne, htc⟩ := hall t (List.mem_cons_self t ts')
    obtain ⟨c0, rest, rfl⟩ := List.exists_cons_of_ne_nil htne
    cases ts' with
    | nil =>
      exact ⟨c0, List.mem_cons_self _ _, htc c0 (List.mem_cons_self _ _)⟩
    | cons u us =>
      refine ⟨c0, ?_, htc c0 (List.mem_cons_self _ _)⟩
      show c0 ∈ joinSpace ((c0 :: rest) :: u :: us)
      simp only [joinSpace]
      exact List.mem_append_left _ (List.mem_cons_self _ _)

theorem normalize_shape (x : String) (a : Bool) :
    ArabicNormalizer.normalize x a = "" ∨
    ∃ ts, ArabicNormalizer.normalize x a = String.mk (joinSpace ts) ∧
      ∀ t ∈ ts, t ≠ [] ∧ ∀ c ∈ t, pyIsSpace c = false := by
  unfold ArabicNormalizer.normalize
  by_cases hg : pyStrip x.toList = []
  · rw [if_pos hg]
    exact Or.inl rfl
  · rw [if_neg hg]
    refine Or.inr ⟨_, rfl, ?_⟩
    intro t ht
    have h2 := (List.mem_filter.mp ht).1
    by_cases ha : a = true
    · rw [if_pos ha] at h2
      exact pySplitGo_mem _ _ t (List.mem_filter.mp h2).1
    · rw [if_neg ha] at h2
      exact pySplitGo_mem _ _ t h2

theorem normalize_split_ne_nil (x : String) (a : Bool)
    (h : ArabicNormalizer.normalize x a ≠ "") :
    pySplit (ArabicNormalizer.normalize x a).toList ≠ [] := by
  rcases normalize_shape x a with heq | ⟨ts, heq, hts⟩
  · exact absurd heq h
  · rw [heq] at h ⊢
    have hje : joinSpace ts ≠ [] := by
      intro hnil
      exact h (by rw [show String.mk (joinSpace ts) = String.mk [] from by
        rw [hnil]])
    have htsne : ts ≠ [] := by
      intro hnil
      rw [hnil] at hje
      exact hje rfl
    obtain ⟨c, hc, hcs⟩ := joinSpace_exists_nonspace ts htsne hts
    have hto : (String.mk (joinSpace ts)).toList = joinSpace ts := rfl
    rw [hto]
    exact pySplitGo_ne_nil _ _ (le_refl _) ⟨c, hc, hcs⟩

theorem insertSorted_length (w : List Char) :
    ∀ l : List (List Char), (insertSorted w l).length = l.length + 1 := by
  intro l
  induction l with
  | nil => rfl
  | cons v vs ih =>
    simp only [insertSorted]
    split
    · simp
    · simp [ih]

theorem sortStrs_length (l : List (List Char)) :
    (sortStrs l).length = l.length := by
  induction l with
  | nil => rfl
  | cons t ts ih =>
    simp only [sortStrs, List.foldr_cons] at ih ⊢
    rw [insertSorted_length, ih]
    rfl

theorem fuzzTokenSet_self (s : String) (h : pySplit s.toList ≠ []) :
    fuzzTokenSet s s = 100 := by
  have hd : (pySplit s.toList).dedup ≠ [] := by
    intro hnil
    exact h ((List.dedup_eq_nil _).mp hnil)
  have hta : sortedTokenSet s ≠ [] := by
    unfold sortedTokenSet
    intro hnil
    apply hd
    have := congrArg List.length hnil
    rw [sortStrs_length] at this
    exact List.length_eq_zero.mp this
  unfold fuzzTokenSet
  rw [if_neg (by push_neg; exact ⟨hta, hta⟩)]
  rw [if_pos]
  constructor
  · obtain ⟨t0, ts0, hts⟩ := List.exists_cons_of_ne_nil hta
    intro hnil
    have ht0 : t0 ∈ (sortedTokenSet s).filter
        (fun t => (sortedTokenSet s).contains t) := by
      refine List.mem_filter.mpr ⟨by rw [hts]; exact List.mem_cons_self _ _, ?_⟩
      have : t0 ∈ sortedTokenSet s := by rw [hts]; exact List.mem_cons_self _ _
      exact List.elem_iff.mpr this
    rw [hnil] at ht0
    simp at ht0
  · left
    rw [List.filter_eq_nil_iff]
    intro t ht
    simp only [Bool.not_eq_true', Bool.not_eq_false]
    exact List.elem_iff.mpr ht

/-- C3: if the query's normalized string equals the entry's normalized
string (both non-empty, and actually in the image of the normalizer), the
query embedding equals the entry's non-zero embedding, and the default
weights/bonuses are in effect with the exact flag set, then the score is at
least 99 (it is exactly 100: cosine 1, token-set ratio 100, exact bonus,
clamped).  `conf` is a category confidence, hence non-negative. -/
theorem C3_exact_match_score_ge_99 (v : List ℚ) (s : String)
    (uc qc : Option String) (conf : ℚ) (pf : Bool)
    (hv : sumSq v ≠ 0) (hs : s ≠ "") (him : ∃ x, normalize_ar x = s)
    (hconf : 0 ≤ conf) :
    (99 : ℝ) ≤ calculate_score defaultConfig (some v) (some v) s s uc conf qc
      true pf none := by
  obtain ⟨x, hx⟩ := him
  have hx2 : ArabicNormalizer.normalize x true = s := hx
  have hsplit : pySplit s.toList ≠ [] := by
    rw [← hx2]
    exact normalize_split_ne_nil x true (by rw [hx2]; exact hs)
  have hl : 0 < s.length := by
    cases s with
    | mk data =>
      cases data with
      | nil => exact absurd rfl hs
      | cons c cs => simp [String.length]
  have hratio : lenRatioOf s s = 1 := by
    unfold lenRatioOf
    rw [max_self, if_pos hl, min_self, max_self]
    have hne : ((s.length : ℚ)) ≠ 0 :=
      Nat.cast_ne_zero.mpr (Nat.pos_iff_ne_zero.mp hl)
    exact div_self hne
  have hbase : scoreBase defaultConfig v v s s = 1 := by
    unfold scoreBase
    rw [cosSim_self v hv, fuzzTokenSet_self s hsplit]
    norm_num [defaultConfig]
  have hlen : lenPenaltyStep 1 s s = 1 := by
    unfold lenPenaltyStep
    rw [if_pos ⟨hs, hs⟩, if_neg (by rw [hratio]; norm_num)]
  have hpat : patternStep defaultConfig 1 s s = 1 := by
    unfold patternStep
    split
    · norm_num [defaultConfig]
    · rfl
  have hcat : categoryStep defaultConfig 1 uc qc conf = 1 := by
    unfold categoryStep
    split
    · have h15 : (0 : ℝ) ≤ ((defaultConfig.category_boost : ℚ) : ℝ) *
          ((conf : ℚ) : ℝ) := by
        apply mul_nonneg
        · norm_num [defaultConfig]
        · exact_mod_cast hconf
      rw [min_eq_left (by linarith)]
    · rfl
  have hbon : bonusStep defaultConfig 1 s s true pf = 1 := by
    unfold bonusStep
    rw [if_pos ⟨rfl, hs, hs, rfl⟩]
    norm_num [defaultConfig]
  simp only [calculate_score, applyWeights]
  rw [if_neg (by simp)]
  rw [hbase, hlen, hpat, hcat, hbon]
  norm_num [defaultConfig]

set_option maxRecDepth 1000000 in
/-- Witness for C3 at the concrete embedding `[1]` and normalized string
`"اب"` (a fixed point of the normalizer). -/
theorem C3_exact_match_score_ge_99_witness :
    (99 : ℝ) ≤ calculate_score defaultConfig (some [1]) (some [1]) "اب" "اب"
      none 0 none true true none :=
  C3_exact_match_score_ge_99 [1] "اب" none none 0 true
    (by norm_num [sumSq]) (by decide) ⟨"اب", by decide⟩ (le_refl 0)

/-! ## Lemmas for the category predictor (C6) -/

theorem pyLowerChar_space {c : Char} (h : pyIsSpace c = true) :
    pyLowerChar c = c := by
  simp only [pyIsSpace, Bool.or_eq_true, decide_eq_true_eq] at h
  rcases h with ((((rfl | rfl) | rfl) | rfl) | rfl) | rfl <;> decide

theorem ciPrefixAt_all_space : ∀ (p l : List Char),
    (∀ c ∈ l, pyIsSpace c = true) →
    (∃ pc ∈ p, pyIsSpace (pyLowerChar pc) = false) →
    ciPrefixAt p l = false := by
  intro p
  induction p with
  | nil =>
    intro l _ hw
    obtain ⟨pc, hpc, _⟩ := hw
    simp at hpc
  | cons pc ps ih =>
    intro l hl hw
    obtain ⟨w, hw, hws⟩ := hw
    cases l with
    | nil => rfl
    | cons c cs =>
      simp only [ciPrefixAt]
      rcases List.mem_cons.mp hw with rfl | hw
      · have hc := hl c (List.mem_cons_self c cs)
        have hlc : pyLowerChar c = c := pyLowerChar_space hc
        have h1 : ¬(pyLowerChar c = pyLowerChar w) := by
          intro he
          rw [hlc] at he
          rw [← he, hc] at hws
          cases hws
        simp [h1]
      · have h2 : ciPrefixAt ps cs = false :=
          ih cs (fun d hd => hl d (List.mem_cons_of_mem c hd)) ⟨w, hw, hws⟩
        simp [h2]

theorem wbOccurs_all_space (p : List Char) :
    ∀ (l : List Char) (prev : Option Char),
    (∀ c ∈ l, pyIsSpace c = true) →
    (∃ pc ∈ p, pyIsSpace (pyLowerChar pc) = false) →
    wbOccurs p prev l = false := by
  intro l
  induction l with
  | nil =>
    intro prev hl hw
    simp only [wbOccurs]
    rw [ciPrefixAt_all_space p [] (by simp) hw]
    simp
  | cons c cs ih =>
    intro prev hl hw
    simp only [wbOccurs]
    rw [ciPrefixAt_all_space p (c :: cs) hl hw,
      ih (some c) (fun d hd => hl d (List.mem_cons_of_mem c hd)) hw]
    simp

theorem pySplitGo_eq_nil_imp : ∀ (fuel : Nat) (l : List Char),
    l.length ≤ fuel → pySplitGo fuel l = [] →
    ∀ c ∈ l, pyIsSpace c = true := by
  intro fuel
  induction fuel with
  | zero =>
    intro l hlen _ c hc
    rw [List.length_eq_zero.mp (Nat.le_zero.mp hlen)] at hc
    simp at hc
  | succ fuel ih =>
    intro l hlen hnil c hc
    cases l with
    | nil => simp at hc
    | cons d rest =>
      simp only [pySplitGo] at hnil
      by_cases hd : pyIsSpace d = true
      · rw [if_pos hd] at hnil
        rcases List.mem_cons.mp hc with rfl | hc
        · exact hd
        · exact ih rest (by simpa using Nat.le_of_succ_le_succ hlen) hnil c hc
      · rw [if_neg hd] at hnil
        simp at hnil

theorem cat_patterns_have_nonspace :
    ∀ cp ∈ CATEGORY_KEYWORDS, ∀ p ∈ cp.2,
    ∃ pc ∈ p.toList, pyIsSpace (pyLowerChar pc) = false := by decide

theorem catCount_zero_of_space (t : String)
    (hsp : ∀ c ∈ t.toList, pyIsSpace c = true)
    (pats : List String)
    (hpat : ∀ p ∈ pats, ∃ pc ∈ p.toList, pyIsSpace (pyLowerChar pc) = false) :
    catCount t pats = 0 := by
  unfold catCount
  rw [List.countP_eq_zero]
  intro p hp
  unfold wbMatches
  rw [wbOccurs_all_space p.toList t.toList none hsp (hpat p hp)]
  simp

/-- C6 as amended: `predict_category` returns `(none, 0)` exactly when
no keyword-list entry of any category matches; otherwise it returns the
first category (in table order) attaining the strictly greatest entry count
`k`, with confidence exactly `min(0.95, 0.5 + 0.1 * k)` — where `k` counts
matching *list entries* (a pattern listed twice and matching counts twice),
not distinct patterns.  The confidence formula is monotonically
non-decreasing in the count and capped at 0.95. -/
theorem C6_predict_category_spec :
    (∀ (text : String) (b : Bool),
      ((∀ cp ∈ CATEGORY_KEYWORDS, catCount (predictInput text b) cp.2 = 0) →
        predict_category text b = (none, 0)) ∧
      (¬(∀ cp ∈ CATEGORY_KEYWORDS, catCount (predictInput text b) cp.2 = 0) →
        ∃ w l1 l2, CATEGORY_KEYWORDS = l1 ++ w :: l2 ∧
          (∀ e ∈ l1, catCount (predictInput text b) e.2 <
            catCount (predictInput text b) w.2) ∧
          (∀ e ∈ l2, catCount (predictInput text b) e.2 ≤
            catCount (predictInput text b) w.2) ∧
          predict_category text b =
            (some w.1, confFormula (catCount (predictInput text b) w.2)))) ∧
    (∀ k k2 : Nat, k ≤ k2 →
      confFormula k ≤ confFormula k2 ∧ confFormula k ≤ 0.95) := by
  constructor
  · intro text b
    by_cases htext : text = ""
    · have hz : ∀ cp ∈ CATEGORY_KEYWORDS,
          catCount (predictInput text b) cp.2 = 0 := by
        intro cp hcp
        apply catCount_zero_of_space
        · intro c hc
          have hemp : predictInput text b = "" := by
            subst htext
            cases b
            · simp [predictInput]
              decide
            · simp [predictInput]
          rw [hemp] at hc
          simp at hc
        · intro p hp
          exact cat_patterns_have_nonspace cp hcp p hp
      refine ⟨fun _ => ?_, fun hnz => absurd hz hnz⟩
      unfold predict_category
      rw [if_pos htext]
    · by_cases hsplit : pySplit (predictInput text b).toList = []
      · have hsp : ∀ c ∈ (predictInput text b).toList, pyIsSpace c = true :=
          pySplitGo_eq_nil_imp _ _ (le_refl _) hsplit
        have hz : ∀ cp ∈ CATEGORY_KEYWORDS,
            catCount (predictInput text b) cp.2 = 0 := by
          intro cp hcp
          exact catCount_zero_of_space _ hsp _
            (fun p hp => cat_patterns_have_nonspace cp hcp p hp)
        refine ⟨fun _ => ?_, fun hnz => absurd hz hnz⟩
        unfold predict_category
        rw [if_neg htext]
        unfold predictInput at hsplit
        rw [if_pos hsplit]
      · -- main case: the fold is reached
        have hred : predict_category text b =
            (if 0 < (argFold Prod.snd (fun cp => some cp.1)
                (CATEGORY_KEYWORDS.map (fun cp =>
                  (cp.1, catCount (predictInput text b) cp.2))) 0 none).1 then
              ((argFold Prod.snd (fun cp => some cp.1)
                (CATEGORY_KEYWORDS.map (fun cp =>
                  (cp.1, catCount (predictInput text b) cp.2))) 0 none).2,
               pyMin 0.95 (0.5 + ((argFold Prod.snd (fun cp => some cp.1)
                (CATEGORY_KEYWORDS.map (fun cp =>
                  (cp.1, catCount (predictInput text b) cp.2))) 0 none).1 : ℚ)
                * 0.1))
            else (none, 0)) := by
          unfold predictInput at hsplit
          simp only [predict_category, htext, hsplit]
          rfl
        rw [argFold_eq_firstMaxFrom, firstMaxFrom_map] at hred
        have hfun : (fun a : String × List String =>
            ((a.1, catCount (predictInput text b) a.2) : String × Nat).2) =
            (fun cp : String × List String =>
              catCount (predictInput text b) cp.2) := by
          funext a
          rfl
        rw [hfun] at hred
        cases hfm : firstMaxFrom (fun cp : String × List String =>
            catCount (predictInput text b) cp.2) CATEGORY_KEYWORDS 0 with
        | none =>
          have hall := (firstMaxFrom_eq_none_iff _ _ _).mp hfm
          have hz : ∀ cp ∈ CATEGORY_KEYWORDS,
              catCount (predictInput text b) cp.2 = 0 :=
            fun cp hcp => Nat.le_zero.mp (hall cp hcp)
          refine ⟨fun _ => ?_, fun hnz => absurd hz hnz⟩
          rw [hfm] at hred
          simpa using hred
        | some w =>
          obtain ⟨hmem, hpos, hmax⟩ := firstMaxFrom_spec _ _ _ w hfm
          obtain ⟨l1, l2, hdec, hlt⟩ := firstMaxFrom_decomp _ _ _ w hfm
          rw [hfm] at hred
          simp only [Option.map_some'] at hred
          have hresult : predict_category text b =
              (some w.1, confFormula (catCount (predictInput text b) w.2)) := by
            rw [hred]
            rw [if_pos hpos]
            rfl
          constructor
          · intro hz
            exact absurd (hz w hmem) (Nat.pos_iff_ne_zero.mp hpos)
          · intro _
            refine ⟨w, l1, l2, hdec, hlt, ?_, hresult⟩
            intro e he
            have hmem2 : e ∈ CATEGORY_KEYWORDS := by
              rw [hdec]
              exact List.mem_append_right l1 (List.mem_cons_of_mem w he)
            exact hmax e hmem2
  · intro k k2 hk
    constructor
    · unfold confFormula pyMin
      have hcast : ((k : ℚ)) ≤ (k2 : ℚ) := by exact_mod_cast hk
      split_ifs with h1 h2 h2 <;> linarith
    · unfold confFormula pyMin
      split_ifs with h1
      · exact le_refl _
      · linarith [not_le.mp h1]

set_option maxRecDepth 1000000 in
/-- C6, counterexample to the claim as stated: on the text `بحث`
(already normalized), the winning category is DELIVERIES and the code
returns confidence `0.7 = min(0.95, 0.5 + 0.1 * 2)`, because the literal
`بحث` appears **twice** in the DELIVERIES keyword list and each list entry
scores a point.  The number of *distinct* matching patterns is 1, for which
the claimed formula gives `0.6 ≠ 0.7`. -/
theorem C6_counterexample :
    predict_category "بحث" true = (some "DELIVERIES", 7/10) ∧
    (∀ cp ∈ CATEGORY_KEYWORDS, cp.1 = "DELIVERIES" →
      catCountDistinct "بحث" cp.2 = 1) ∧
    confFormula 1 = 3/5 ∧ ((7 : ℚ)/10 ≠ 3/5) := by
  have htext : ¬("بحث" : String) = "" := by decide
  have hsplit :
      ¬pySplit ((if (true : Bool) then ("بحث" : String)
        else normalize_ar "بحث")).toList = [] := by decide
  have h1 : (argFold Prod.snd (fun cp => some cp.1)
      (CATEGORY_KEYWORDS.map (fun cp =>
        (cp.1, catCount (predictInput "بحث" true) cp.2))) 0 none)
      = (2, some "DELIVERIES") := by decide
  have hred : predict_category "بحث" true =
      (if 0 < (argFold Prod.snd (fun cp => some cp.1)
          (CATEGORY_KEYWORDS.map (fun cp =>
            (cp.1, catCount (predictInput "بحث" true) cp.2))) 0 none).1 then
        ((argFold Prod.snd (fun cp => some cp.1)
          (CATEGORY_KEYWORDS.map (fun cp =>
            (cp.1, catCount (predictInput "بحث" true) cp.2))) 0 none).2,
         pyMin 0.95 (0.5 + ((argFold Prod.snd (fun cp => some cp.1)
          (CATEGORY_KEYWORDS.map (fun cp =>
            (cp.1, catCount (predictInput "بحث" true) cp.2))) 0 none).1 : ℚ)
          * 0.1))
      else (none, 0)) := by
    simp only [predict_category, htext, hsplit]
    rfl
  refine ⟨?_, by decide, by norm_num [confFormula, pyMin], by norm_num⟩
  rw [hred, h1]
  rw [if_pos (by norm_num)]
  simp only [Prod.mk.injEq]
  exact ⟨trivial, by norm_num [pyMin]⟩

/-- Witness for C6 (amended): a text with zero keyword matches yields
`(none, 0)`, and the confidence formula is monotone and capped. -/
theorem C6_predict_category_spec_witness :
    predict_category "xyz" true = (none, 0) ∧
    (confFormula 1 ≤ confFormula 2 ∧ confFormula 1 ≤ 0.95) :=
  ⟨(C6_predict_category_spec.1 "xyz" true).1 (by decide),
   C6_predict_category_spec.2 1 2 (by decide)⟩
